import Mathlib

/-!
Shallow embedding of the constraint-based topology resolver of
`src/experiments/deployer.py`: constraint-clause parsing through
`ANNOTATION_REGEX` with `re.match`, literal coercion (`Annotation.__init__`),
predicate evaluation (`Annotation.is_satisfied`), group membership
(`host_belong_group`), the resolution loop of `main`, and the inventory
assembly of `main`.

Modelling conventions, stated once:

* Scalar values (TOML capability values and coerced literals) are `Value`:
  integers as `ℤ`, Python floats as exact rationals `ℚ` (CPython compares
  `int` against `float` mathematically exactly, and every numeric token in
  this development is exactly representable; binary64 rounding and the
  special tokens inf/nan/infinity and underscore digit grouping are outside
  the modelled fragment), strings as `String`.
* Python exceptions become `Except EvalErr`; the constructors follow the
  raise sites of the source: `parseError` for "Invalid annotation",
  `validation` for "Group ... has no annotations", `invalidValue` for
  "Invalid value" inside `is_satisfied`, `pyTypeError` for the `TypeError`
  CPython itself raises on an order comparison of a string against a number,
  and the two lookup failures of `get_host`/`get_group`.
* Python dicts are insertion-ordered association lists.
* The regex classes `\w` and `\s` are modelled over ASCII.
-/

namespace Deployer

/-- Regex class `\w` (ASCII fragment): letters, digits, underscore. -/
def isWordChar (c : Char) : Bool := c.isAlphanum || c = '_'

/-- Regex class `\s` (ASCII fragment). -/
def isSpaceChar (c : Char) : Bool :=
  c = ' ' || c = '\t' || c = '\n' || c = '\r' || c = '\x0b' || c = '\x0c'

/-- Scalar values a capability or a coerced constraint literal can take. -/
inductive Value where
  | int (n : ℤ)
  | float (q : ℚ)
  | str (s : String)
deriving DecidableEq, Repr

/-- The raise sites of the source, one constructor each. -/
inductive EvalErr where
  | parseError (clause : String)
  | invalidValue (v : Value)
  | pyTypeError
  | validation (group : String)
  | hostNotFound (name : String)
  | groupNotFound (name : String)
deriving DecidableEq, Repr

deriving instance DecidableEq for Except

/-- The five comparison operators the regex alternation admits. -/
inductive Op where
  | eq | lt | gt | le | ge
deriving DecidableEq, Repr

/-- Source class `Annotation` (one parsed constraint clause): `key` and the
operator come from the regex capture groups, `value` is the coerced literal. -/
structure Predicate where
  key : String
  op : Op
  value : Value
deriving DecidableEq, Repr

/-- Decimal digits to a number (the digits are already validated). -/
def digitsToNat (l : List Char) : ℕ :=
  l.foldl (fun acc c => acc * 10 + (c.toNat - 48)) 0

/-- An optional leading sign, as Python numeric conversion accepts. -/
def parseSign : List Char → ℤ × List Char
  | '+' :: r => (1, r)
  | '-' :: r => (-1, r)
  | r => (1, r)

/-- Python `int(s)` on the strings reachable here: optional sign then decimal
digits (underscore grouping and surrounding whitespace are not modelled). -/
def pyToInt (s : String) : Option ℤ :=
  let (sg, r) := parseSign s.data
  if !r.isEmpty && r.all Char.isDigit then some (sg * digitsToNat r) else none

/-- The exponent suffix of a float literal: `(e|E)[sign]digits`, already
split after the `e`/`E`, as a signed exponent of ten. -/
def expVal (r : List Char) : Option ℤ :=
  let (es, r2) := parseSign r
  let ed := r2.takeWhile Char.isDigit
  let r3 := r2.dropWhile Char.isDigit
  if ed.isEmpty || !r3.isEmpty then none else some (es * digitsToNat ed)

/-- The float's exact value `sg · mant · 10^e / 10^scale`, assembled as one
normalised fraction: `mant` holds the integer-and-fraction digits, `scale`
the number of fraction digits, and `rest` an optional exponent suffix. -/
def mantissaThenExp (sg : ℤ) (mant : ℕ) (scale : ℕ) (rest : List Char) : Option ℚ :=
  let mk := fun (e : ℤ) =>
    mkRat (sg * (mant : ℤ) * (10 : ℤ) ^ e.toNat) (10 ^ (scale + (-e).toNat))
  match rest with
  | [] => some (mk 0)
  | 'e' :: er => (expVal er).map mk
  | 'E' :: er => (expVal er).map mk
  | _ => none

/-- Python `float(s)` on the decimal fragment
`[sign] (digits [. digits?] | . digits) [(e|E)[sign]digits]`, valued exactly
as a rational (see the header note on floats). -/
def pyToFloat (s : String) : Option ℚ :=
  let (sg, r) := parseSign s.data
  let ip := r.takeWhile Char.isDigit
  let r1 := r.dropWhile Char.isDigit
  match r1 with
  | '.' :: r2 =>
    let fp := r2.takeWhile Char.isDigit
    let r3 := r2.dropWhile Char.isDigit
    if ip.isEmpty && fp.isEmpty then none
    else mantissaThenExp sg (digitsToNat ip * 10 ^ fp.length + digitsToNat fp) fp.length r3
  | _ => if ip.isEmpty then none else mantissaThenExp sg (digitsToNat ip) 0 r1

/-- `Annotation.__init__`: try `int(value)`, then `float(value)`, else keep
the string — first success wins. -/
def coerceValue (raw : String) : Value :=
  match pyToInt raw with
  | some n => .int n
  | none =>
    match pyToFloat raw with
    | some q => .float q
    | none => .str raw

/-- Build the parsed clause from the three capture groups. -/
def Predicate.make (key : String) (op : Op) (raw : String) : Predicate :=
  ⟨key, op, coerceValue raw⟩

/-- Python `==` on the modelled scalars: numbers compare by exact value
across the int/float kinds, strings by string equality, and a string never
equals a number (`==` never raises). -/
def pyEq : Value → Value → Bool
  | .int m, .int n => m == n
  | .int m, .float q => (m : ℚ) == q
  | .float q, .int n => q == (n : ℚ)
  | .float p, .float q => p == q
  | .str s, .str t => s == t
  | _, _ => false

/-- Python `<` on the modelled scalars: numeric pairs compare exactly,
string pairs lexicographically, and a string against a number raises
`TypeError`. -/
def pyLt : Value → Value → Except EvalErr Bool
  | .int m, .int n => .ok (decide (m < n))
  | .int m, .float q => .ok (decide ((m : ℚ) < q))
  | .float q, .int n => .ok (decide (q < (n : ℚ)))
  | .float p, .float q => .ok (decide (p < q))
  | .str s, .str t => .ok (decide (s < t))
  | _, _ => .error .pyTypeError

/-- Python `>`, same shape as `pyLt`. -/
def pyGt : Value → Value → Except EvalErr Bool
  | .int m, .int n => .ok (decide (m > n))
  | .int m, .float q => .ok (decide ((m : ℚ) > q))
  | .float q, .int n => .ok (decide (q > (n : ℚ)))
  | .float p, .float q => .ok (decide (p > q))
  | .str s, .str t => .ok (decide (t < s))
  | _, _ => .error .pyTypeError

/-- Python `<=`, same shape as `pyLt`. -/
def pyLe : Value → Value → Except EvalErr Bool
  | .int m, .int n => .ok (decide (m ≤ n))
  | .int m, .float q => .ok (decide ((m : ℚ) ≤ q))
  | .float q, .int n => .ok (decide (q ≤ (n : ℚ)))
  | .float p, .float q => .ok (decide (p ≤ q))
  | .str s, .str t => .ok (decide (¬ t < s))
  | _, _ => .error .pyTypeError

/-- Python `>=`, same shape as `pyLt`. -/
def pyGe : Value → Value → Except EvalErr Bool
  | .int m, .int n => .ok (decide (m ≥ n))
  | .int m, .float q => .ok (decide ((m : ℚ) ≥ q))
  | .float q, .int n => .ok (decide (q ≥ (n : ℚ)))
  | .float p, .float q => .ok (decide (p ≥ q))
  | .str s, .str t => .ok (decide (¬ s < t))
  | _, _ => .error .pyTypeError

/-- `Annotation.is_satisfied`: dispatch on the operator, then on the runtime
type of the literal. `=` applies Python `==` for every literal kind (the
three isinstance branches of the source all run `value == self.value`); the
four ordering operators require an int or float literal and raise
"Invalid value" on a string literal; the comparison itself is Python's,
with the host value as the left operand, as in the source. -/
def Predicate.is_satisfied (a : Predicate) (v : Value) : Except EvalErr Bool :=
  match a.op with
  | .eq => .ok (pyEq v a.value)
  | .lt =>
    match a.value with
    | .int _ => pyLt v a.value
    | .float _ => pyLt v a.value
    | .str s => .error (.invalidValue (.str s))
  | .gt =>
    match a.value with
    | .int _ => pyGt v a.value
    | .float _ => pyGt v a.value
    | .str s => .error (.invalidValue (.str s))
  | .le =>
    match a.value with
    | .int _ => pyLe v a.value
    | .float _ => pyLe v a.value
    | .str s => .error (.invalidValue (.str s))
  | .ge =>
    match a.value with
    | .int _ => pyGe v a.value
    | .float _ => pyGe v a.value
    | .str s => .error (.invalidValue (.str s))

/-- The operator alternatives of `ANNOTATION_REGEX`, in the regex's
alternation order `=|<|>|<=|>=`. -/
def opAlternatives : List (Op × List Char) :=
  [(.eq, ['=']), (.lt, ['<']), (.gt, ['>']), (.le, ['<', '=']), (.ge, ['>', '='])]

/-- Regex alternation with backtracking, specialised to `ANNOTATION_REGEX`:
a candidate commits exactly when it is a prefix of the input and, after the
greedy `\s*`, a `\w` character follows — the only way the regex tail
`\s*(\w+)` can then succeed (shrinking a greedy `\s*` only puts a space
character under an atom that rejects spaces, so only the maximal run
matters); otherwise the engine falls through to the next alternative. -/
def findOp : List (Op × List Char) → List Char → Option (Op × List Char)
  | [], _ => none
  | (op, pat) :: cands, cs =>
    if pat.isPrefixOf cs then
      let after := cs.drop pat.length
      match (after.dropWhile isSpaceChar).head? with
      | some c => if isWordChar c then some (op, after) else findOp cands cs
      | none => findOp cands cs
    else findOp cands cs

/-- `re.match(ANNOTATION_REGEX, s)`: anchored at the start only (a prefix
match; trailing text is ignored), with the greedy `(\w+)` and `\s*` runs
effectively maximal — shrinking `(\w+)` puts a word character under an
operator alternative and shrinking `\s*` puts a space there, both of which
fail — so the three capture groups are determined as below. -/
def reMatchClause (s : String) : Option (String × Op × String) :=
  let cs := s.data
  let ident := cs.takeWhile isWordChar
  if ident.isEmpty then none
  else
    match findOp opAlternatives ((cs.dropWhile isWordChar).dropWhile isSpaceChar) with
    | none => none
    | some (op, after) =>
      let tok := (after.dropWhile isSpaceChar).takeWhile isWordChar
      if tok.isEmpty then none
      else some (ident.asString, op, tok.asString)

/-- Source `parse_annotation`: match the clause against the regex, raise
"Invalid annotation" naming the clause when the match fails, otherwise build
the `Annotation` from the capture groups. -/
def parseClause (clause : String) : Except EvalErr Predicate :=
  match reMatchClause clause with
  | none => .error (.parseError clause)
  | some (k, op, raw) => .ok (Predicate.make k op raw)

/-- Accumulator-passing core of `splitOnComma`. -/
def splitAux (cur : List Char) (acc : List String) : List Char → List String
  | [] => acc ++ [cur.reverse.asString]
  | c :: rest =>
    if c = ',' then splitAux [] (acc ++ [cur.reverse.asString]) rest
    else splitAux (c :: cur) acc rest

/-- Python `s.split(",")`. -/
def splitOnComma (s : String) : List String := splitAux [] [] s.data

/-- The per-group parse in `main`: split the constraint string on commas and
parse every clause, aborting on the first failure. -/
def parseConstraints (s : String) : Except EvalErr (List Predicate) :=
  (splitOnComma s).mapM parseClause

/-- SSH block of a host (carried through untouched). -/
structure SSH where
  user : String
  password : Option String
  key_file : Option String
  port : Option ℤ
deriving DecidableEq, Repr

/-- A group's input/output connection spec (carried through untouched;
`dump_input`/`dump_output` serialise it verbatim or yield `None`). -/
structure Connection where
  type : String
  topic : String
  brokers : List String
  timeout : Option ℤ
deriving DecidableEq, Repr

/-- Source model `Group`. -/
structure Group where
  name : String
  constraints : Option String
  input : Option Connection
  output : Option Connection
deriving DecidableEq, Repr

/-- Source model `Host` (the field name `capabilites` is the source's own
spelling; the capability dict is an insertion-ordered association list). -/
structure Host where
  name : String
  address : String
  base_port : ℤ
  num_cores : ℤ
  ssh : SSH
  capabilites : List (String × Value)
  zone : Option String
deriving DecidableEq, Repr

/-- Source model `Heartbeat`. -/
structure Heartbeat where
  brokers : List String
  topic : String
  timeout : ℤ
deriving DecidableEq, Repr

/-- Source model `InputConfig`. -/
structure InputConfig where
  hosts : List Host
  groups : List Group
  heartbeat : Heartbeat
deriving DecidableEq, Repr

/-- `InputConfig.get_host`: the first declared host with the name, else
"Host ... not found". -/
def InputConfig.get_host (cfg : InputConfig) (name : String) : Except EvalErr Host :=
  match cfg.hosts.find? (fun h => h.name == name) with
  | some h => .ok h
  | none => .error (.hostNotFound name)

/-- `InputConfig.get_group`: the first declared group with the name, else
"Group ... not found". -/
def InputConfig.get_group (cfg : InputConfig) (name : String) : Except EvalErr Group :=
  match cfg.groups.find? (fun g => g.name == name) with
  | some g => .ok g
  | none => .error (.groupNotFound name)

/-- Whether an `Except` carries a value. -/
def exceptOk {α : Type} : Except EvalErr α → Bool
  | .ok _ => true
  | .error _ => false

/-- Inner loop of `host_belong_group`: `temp &= a.is_satisfied(value)` over
every predicate whose key names the capability. The source keeps evaluating
(and so keeps raising) within one capability even after `temp` is false —
`&=` does not short-circuit — which this fold preserves. -/
def checkCap (name : String) (v : Value) : List Predicate → Bool → Except EvalErr Bool
  | [], temp => .ok temp
  | a :: rest, temp =>
    if a.key == name then
      match a.is_satisfied v with
      | .error e => .error e
      | .ok b => checkCap name v rest (temp && b)
    else checkCap name v rest temp

/-- Outer loop of `host_belong_group` over the host's capabilities, with the
source's `break` once the accumulator has gone false (so later capabilities
are not examined); the accumulator is always true on entering a capability. -/
def capsLoop (preds : List Predicate) : List (String × Value) → Except EvalErr Bool
  | [] => .ok true
  | (name, v) :: caps =>
    match checkCap name v preds true with
    | .error e => .error e
    | .ok false => .ok false
    | .ok true => capsLoop preds caps

/-- Source `host_belong_group`. -/
def host_belong_group (host : Host) (preds : List Predicate) : Except EvalErr Bool :=
  capsLoop preds host.capabilites

/-- The membership mapping `main` builds: group name to member host names,
in dict insertion order. -/
abbrev Mapping := List (String × List String)

/-- Python `mapping.setdefault(group.name, []).append(host.name)` on an
insertion-ordered dict: append to the existing entry in place, or create the
key at the end. -/
def addPair (m : Mapping) (g h : String) : Mapping :=
  if m.any (fun p => p.1 == g) then
    m.map (fun p => if p.1 == g then (p.1, p.2 ++ [h]) else p)
  else m ++ [(g, [h])]

/-- The host loop of `main` for one group. -/
def foldHosts (preds : List Predicate) (gname : String) :
    Mapping → List Host → Except EvalErr Mapping
  | m, [] => .ok m
  | m, h :: hs =>
    match host_belong_group h preds with
    | .error e => .error e
    | .ok true => foldHosts preds gname (addPair m gname h.name) hs
    | .ok false => foldHosts preds gname m hs

/-- The group loop of `main`: reject an absent or empty constraint string
("Group ... has no annotations"; Python `not` is true exactly on `None` and
`""`), parse the clauses, then scan the hosts. -/
def resolveGroupsAux (cfg : InputConfig) : Mapping → List Group → Except EvalErr Mapping
  | m, [] => .ok m
  | m, g :: gs =>
    match g.constraints with
    | none => .error (.validation g.name)
    | some c =>
      if c == "" then .error (.validation g.name)
      else
        match parseConstraints c with
        | .error e => .error e
        | .ok preds =>
          match foldHosts preds g.name m cfg.hosts with
          | .error e => .error e
          | .ok m2 => resolveGroupsAux cfg m2 gs

/-- The membership-resolution pass of `main` (its first loop). -/
def resolveGroups (cfg : InputConfig) : Except EvalErr Mapping :=
  resolveGroupsAux cfg [] cfg.groups

/-- `Host.dump_ansible`: the per-host deployment attributes emitted into the
inventory. -/
structure AnsibleHostVars where
  ansible_host : String
  renoir_base_port : ℤ
  renoir_num_cores : ℤ
deriving DecidableEq, Repr

/-- `Host.dump_ansible`. -/
def Host.dump_ansible (h : Host) : AnsibleHostVars :=
  ⟨h.address, h.base_port, h.num_cores⟩

/-- One group entry of the inventory: the hosts sub-map and the topology
variables (`dump_input`/`dump_output`, each possibly `None`). -/
structure GroupEntry where
  hosts : List (String × AnsibleHostVars)
  input : Option Connection
  output : Option Connection
deriving DecidableEq, Repr

/-- The whole document `main` serialises: `output["all"]`, its `children`
in mapping order plus the global heartbeat block. -/
structure Inventory where
  children : List (String × GroupEntry)
  heartbeat : Heartbeat
deriving DecidableEq, Repr

/-- Insertion-ordered dict write `d[k] = v`: overwrite in place or append. -/
def dictInsert (m : List (String × AnsibleHostVars)) (k : String) (v : AnsibleHostVars) :
    List (String × AnsibleHostVars) :=
  if m.any (fun p => p.1 == k) then
    m.map (fun p => if p.1 == k then (p.1, v) else p)
  else m ++ [(k, v)]

/-- The dict comprehension `{v: get_host(v).dump_ansible() for v in map_hosts}`. -/
def hostsMapAux (cfg : InputConfig) (acc : List (String × AnsibleHostVars)) :
    List String → Except EvalErr (List (String × AnsibleHostVars))
  | [] => .ok acc
  | n :: ns =>
    match cfg.get_host n with
    | .error e => .error e
    | .ok h => hostsMapAux cfg (dictInsert acc n h.dump_ansible) ns

/-- One `group_data` entry of `main`. The mapping's values here are always
lists (built by `append`), so only the `isinstance(map_hosts, list)` branch
of the source is reachable; the topology comes from
`get_group(map_group).dump_input()`/`.dump_output()`. -/
def assembleGroup (cfg : InputConfig) (gname : String) (members : List String) :
    Except EvalErr GroupEntry :=
  match hostsMapAux cfg [] members with
  | .error e => .error e
  | .ok hm =>
    match cfg.get_group gname with
    | .error e => .error e
    | .ok g => .ok ⟨hm, g.input, g.output⟩

/-- The `all_childer` loop of `main`, over the mapping in insertion order. -/
def assembleAll (cfg : InputConfig) : Mapping → Except EvalErr (List (String × GroupEntry))
  | [] => .ok []
  | (g, ms) :: rest =>
    match assembleGroup cfg g ms with
    | .error e => .error e
    | .ok entry =>
      match assembleAll cfg rest with
      | .error e => .error e
      | .ok cs => .ok ((g, entry) :: cs)

/-- Resolution followed by assembly: the whole document or the first error.
The source writes the output file only after both loops have finished, so on
any error nothing at all is emitted. -/
def buildInventory (cfg : InputConfig) : Except EvalErr Inventory :=
  match resolveGroups cfg with
  | .error e => .error e
  | .ok m =>
    match assembleAll cfg m with
    | .error e => .error e
    | .ok cs => .ok ⟨cs, cfg.heartbeat⟩

/-- Declarative per-group membership: the hosts, in declaration order, the
predicates accept; used to characterise the imperative loop. -/
def hostFilter (preds : List Predicate) : List Host → Except EvalErr (List String)
  | [] => .ok []
  | h :: hs =>
    match host_belong_group h preds with
    | .error e => .error e
    | .ok true =>
      match hostFilter preds hs with
      | .error e => .error e
      | .ok names => .ok (h.name :: names)
    | .ok false => hostFilter preds hs

/-- Declarative resolution, following the spec's resolver contract: each
group in declaration order contributes its member list when nonempty. -/
def groupsFilter (cfg : InputConfig) : List Group → Except EvalErr Mapping
  | [] => .ok []
  | g :: gs =>
    match g.constraints with
    | none => .error (.validation g.name)
    | some c =>
      if c == "" then .error (.validation g.name)
      else
        match parseConstraints c with
        | .error e => .error e
        | .ok preds =>
          match hostFilter preds cfg.hosts with
          | .error e => .error e
          | .ok names =>
            match groupsFilter cfg gs with
            | .error e => .error e
            | .ok rest => .ok (if names.isEmpty then rest else (g.name, names) :: rest)

/-- Modelled from the spec (§4.1, §6): the operator strings of the textual
constraint grammar. -/
def opStrings : List (List Char) := [['='], ['<'], ['>'], ['<', '='], ['>', '=']]

/-- Modelled from the spec (§4.1): the clause matches the grammar
`identifier ws* op ws* token` in full, identifier and token being nonempty
`\w` words. -/
def ClauseGrammar (s : String) : Prop :=
  ∃ ident ws1 op ws2 tok : List Char,
    s.data = ident ++ (ws1 ++ (op ++ (ws2 ++ tok))) ∧
    ident ≠ [] ∧ ident.all isWordChar ∧ ws1.all isSpaceChar ∧
    op ∈ opStrings ∧ ws2.all isSpaceChar ∧ tok ≠ [] ∧ tok.all isWordChar

/-- The grammar anchored only at the clause's start: some initial segment of
the clause matches `identifier ws* op ws* token` and arbitrary text may
follow. -/
def ClauseGrammarAtStart (s : String) : Prop :=
  ∃ ident ws1 op ws2 tok rest : List Char,
    s.data = ident ++ (ws1 ++ (op ++ (ws2 ++ (tok ++ rest)))) ∧
    ident ≠ [] ∧ ident.all isWordChar ∧ ws1.all isSpaceChar ∧
    op ∈ opStrings ∧ ws2.all isSpaceChar ∧ tok ≠ [] ∧ tok.all isWordChar

/-- A group the resolution pass rejects up front: no constraint string, or
the empty one. -/
def badGroup (g : Group) : Prop := g.constraints = none ∨ g.constraints = some ""

/-- A group the resolution pass processes without error: a nonempty
constraint string whose clauses all parse and whose predicates evaluate
without raising on every host. -/
def groupOk (cfg : InputConfig) (g : Group) : Prop :=
  ∃ c preds names, g.constraints = some c ∧ c ≠ "" ∧
    parseConstraints c = .ok preds ∧ hostFilter preds cfg.hosts = .ok names

theorem checkCap_error {name : String} {v : Value} {preds : List Predicate} {temp : Bool}
    {e : EvalErr} (h : checkCap name v preds temp = .error e) :
    ∃ a ∈ preds, a.key = name ∧ a.is_satisfied v = .error e := by
  induction preds generalizing temp with
  | nil => simp [checkCap] at h
  | cons a rest ih =>
    simp only [checkCap] at h
    by_cases hk : a.key = name
    · rw [if_pos (by simpa using hk)] at h
      cases hs : a.is_satisfied v with
      | error f =>
        rw [hs] at h
        cases h
        exact ⟨a, List.mem_cons_self a rest, hk, hs⟩
      | ok b =>
        rw [hs] at h
        obtain ⟨a', ha', hk', hs'⟩ := ih h
        exact ⟨a', List.mem_cons_of_mem a ha', hk', hs'⟩
    · rw [if_neg (by simpa using hk)] at h
      obtain ⟨a', ha', hk', hs'⟩ := ih h
      exact ⟨a', List.mem_cons_of_mem a ha', hk', hs'⟩

theorem checkCap_ok_true_iff (name : String) (v : Value) (preds : List Predicate) (temp : Bool) :
    checkCap name v preds temp = .ok true ↔
      (temp = true ∧ ∀ a ∈ preds, a.key = name → a.is_satisfied v = .ok true) := by
  induction preds generalizing temp with
  | nil => simp [checkCap]
  | cons a rest ih =>
    simp only [checkCap]
    by_cases hk : a.key = name
    · rw [if_pos (by simpa using hk)]
      cases hs : a.is_satisfied v with
      | error f =>
        constructor
        · intro h; cases h
        · rintro ⟨-, hall⟩
          have := hall a (List.mem_cons_self a rest) hk
          rw [hs] at this; cases this
      | ok b =>
        rw [ih]
        simp [List.forall_mem_cons, hk, hs, Bool.and_eq_true, and_assoc]
    · rw [if_neg (by simpa using hk)]
      rw [ih]
      simp [List.forall_mem_cons, hk]

theorem capsLoop_ok_true_iff (preds : List Predicate) (caps : List (String × Value)) :
    capsLoop preds caps = .ok true ↔
      ∀ p ∈ caps, ∀ a ∈ preds, a.key = p.1 → a.is_satisfied p.2 = .ok true := by
  induction caps with
  | nil => simp [capsLoop]
  | cons c caps ih =>
    obtain ⟨name, v⟩ := c
    simp only [capsLoop]
    cases hc : checkCap name v preds true with
    | error e =>
      obtain ⟨a, ha, hk, hs⟩ := checkCap_error hc
      constructor
      · intro h; cases h
      · intro hall
        have := hall (name, v) (List.mem_cons_self _ _) a ha hk
        rw [hs] at this; cases this
    | ok b =>
      cases b with
      | false =>
        constructor
        · intro h; cases h
        · intro hall
          have : checkCap name v preds true = .ok true := by
            rw [checkCap_ok_true_iff]
            exact ⟨rfl, fun a ha hk => hall (name, v) (List.mem_cons_self _ _) a ha hk⟩
          rw [hc] at this; cases this
      | true =>
        rw [ih]
        have hhead := (checkCap_ok_true_iff name v preds true).mp hc
        constructor
        · intro hrest
          intro p hp
          rcases List.mem_cons.mp hp with h1 | h2
          · subst h1; exact hhead.2
          · exact hrest p h2
        · intro hall
          exact fun p hp => hall p (List.mem_cons_of_mem _ hp)

theorem host_belong_group_ok_true_iff (host : Host) (preds : List Predicate) :
    host_belong_group host preds = .ok true ↔
      ∀ p ∈ host.capabilites, ∀ a ∈ preds, a.key = p.1 → a.is_satisfied p.2 = .ok true :=
  capsLoop_ok_true_iff preds host.capabilites

theorem foldHosts_error_iff (preds : List Predicate) (g : String) (hs : List Host)
    (e : EvalErr) : ∀ m, foldHosts preds g m hs = .error e ↔ hostFilter preds hs = .error e := by
  induction hs with
  | nil => intro m; simp [foldHosts, hostFilter]
  | cons h hs ih =>
    intro m
    simp only [foldHosts, hostFilter]
    cases hb : host_belong_group h preds with
    | error f => simp
    | ok b =>
      cases b with
      | true =>
        rw [ih]
        cases hf : hostFilter preds hs <;> simp
      | false => exact ih m

theorem foldHosts_ok_of_filter (preds : List Predicate) (g : String) (hs : List Host)
    (names : List String) (h : hostFilter preds hs = .ok names) (m : Mapping) :
    ∃ m2, foldHosts preds g m hs = .ok m2 := by
  cases hf : foldHosts preds g m hs with
  | ok m2 => exact ⟨m2, rfl⟩
  | error e =>
    rw [foldHosts_error_iff] at hf
    rw [h] at hf; cases hf

theorem resolveGroupsAux_error_of_bad (cfg : InputConfig) :
    ∀ (gs : List Group) (m : Mapping), (∃ g ∈ gs, badGroup g) →
      ∃ e, resolveGroupsAux cfg m gs = .error e := by
  intro gs
  induction gs with
  | nil => rintro m ⟨g, hg, -⟩; cases hg
  | cons g gs ih =>
    rintro m ⟨g', hg', hbad⟩
    rcases List.mem_cons.mp hg' with rfl | hmem
    · rcases hbad with hc | hc
      · exact ⟨.validation g'.name, by simp only [resolveGroupsAux, hc]⟩
      · exact ⟨.validation g'.name, by simp only [resolveGroupsAux, hc]; simp⟩
    · cases hc : g.constraints with
      | none => exact ⟨.validation g.name, by simp only [resolveGroupsAux, hc]⟩
      | some c =>
        by_cases hce : c = ""
        · subst hce
          exact ⟨.validation g.name, by simp only [resolveGroupsAux, hc]; simp⟩
        · have hce' : (c == "") = false := by simpa using hce
          cases hp : parseConstraints c with
          | error e =>
            exact ⟨e, by
              simp only [resolveGroupsAux, hc, hce', Bool.false_eq_true, if_false, hp]⟩
          | ok preds =>
            cases hf : foldHosts preds g.name m cfg.hosts with
            | error e =>
              exact ⟨e, by
                simp only [resolveGroupsAux, hc, hce', Bool.false_eq_true, if_false, hp, hf]⟩
            | ok m2 =>
              obtain ⟨e, he⟩ := ih m2 ⟨g', hmem, hbad⟩
              refine ⟨e, ?_⟩
              simp only [resolveGroupsAux, hc, hce', Bool.false_eq_true, if_false, hp, hf]
              exact he

theorem resolveGroupsAux_validation (cfg : InputConfig) :
    ∀ (gs : List Group) (m : Mapping), (∃ g ∈ gs, badGroup g) →
      (∀ g ∈ gs, ¬ badGroup g → groupOk cfg g) →
      ∃ gname, resolveGroupsAux cfg m gs = .error (.validation gname)
        ∧ ∃ g ∈ gs, g.name = gname ∧ badGroup g := by
  intro gs
  induction gs with
  | nil => rintro m ⟨g, hg, -⟩; cases hg
  | cons g gs ih =>
    rintro m ⟨g', hg', hbad⟩ hok
    simp only [resolveGroupsAux]
    by_cases hb : badGroup g
    · refine ⟨g.name, ?_, g, List.mem_cons_self g gs, rfl, hb⟩
      rcases hb with hc | hc
      · rw [hc]
      · rw [hc]; simp
    · have hg'mem : g' ∈ gs := by
        rcases List.mem_cons.mp hg' with rfl | hmem
        · exact absurd hbad hb
        · exact hmem
      obtain ⟨c, preds, names, hc, hce, hp, hf⟩ := hok g (List.mem_cons_self g gs) hb
      have hce' : (c == "") = false := by simpa using hce
      obtain ⟨m2, hm2⟩ := foldHosts_ok_of_filter preds g.name cfg.hosts names hf m
      simp only [hc, hce', Bool.false_eq_true, if_false, hp, hm2]
      obtain ⟨gname, hres, g2, hg2, hname, hbad2⟩ :=
        ih m2 ⟨g', hg'mem, hbad⟩ (fun g2 hg2 => hok g2 (List.mem_cons_of_mem g hg2))
      exact ⟨gname, hres, g2, List.mem_cons_of_mem g hg2, hname, hbad2⟩

theorem buildInventory_error_of_resolve {cfg : InputConfig} {e : EvalErr}
    (h : resolveGroups cfg = .error e) : buildInventory cfg = .error e := by
  simp [buildInventory, h]

theorem any_key_eq_false {m : Mapping} {g : String} (h : ∀ p ∈ m, p.1 ≠ g) :
    (m.any (fun p => p.1 == g)) = false := by
  rw [List.any_eq_false]
  intro p hp
  simp [h p hp]

theorem addPair_fresh {m : Mapping} {g : String} (h : ∀ p ∈ m, p.1 ≠ g) (x : String) :
    addPair m g x = m ++ [(g, [x])] := by
  simp only [addPair, any_key_eq_false h, Bool.false_eq_true, if_false]

theorem addPair_present_last {m : Mapping} {g : String} (h : ∀ p ∈ m, p.1 ≠ g)
    (acc : List String) (x : String) :
    addPair (m ++ [(g, acc)]) g x = m ++ [(g, acc ++ [x])] := by
  have hany : ((m ++ [(g, acc)]).any (fun p => p.1 == g)) = true := by
    rw [List.any_append]; simp
  simp only [addPair, hany, if_true, List.map_append]
  congr 1
  · have hmap : ∀ p ∈ m, (if p.1 == g then (p.1, p.2 ++ [x]) else p) = p := by
      intro p hp
      rw [if_neg]
      simp [h p hp]
    rw [List.map_congr_left hmap]
    simp
  · simp

theorem foldHosts_present (preds : List Predicate) (g : String) :
    ∀ (hs : List Host) (m : Mapping) (acc : List String), (∀ p ∈ m, p.1 ≠ g) →
      foldHosts preds g (m ++ [(g, acc)]) hs =
        Except.map (fun names => m ++ [(g, acc ++ names)]) (hostFilter preds hs) := by
  intro hs
  induction hs with
  | nil => intro m acc h; simp [foldHosts, hostFilter, Except.map]
  | cons hh hs ih =>
    intro m acc h
    simp only [foldHosts, hostFilter]
    cases hb : host_belong_group hh preds with
    | error e => simp [Except.map]
    | ok b =>
      cases b with
      | true =>
        rw [addPair_present_last h acc hh.name, ih m (acc ++ [hh.name]) h]
        cases hf : hostFilter preds hs with
        | error e => simp [Except.map]
        | ok names => simp [Except.map]
      | false => exact ih m acc h

theorem foldHosts_fresh (preds : List Predicate) (g : String) :
    ∀ (hs : List Host) (m : Mapping), (∀ p ∈ m, p.1 ≠ g) →
      foldHosts preds g m hs =
        Except.map (fun names => if names.isEmpty then m else m ++ [(g, names)])
          (hostFilter preds hs) := by
  intro hs
  induction hs with
  | nil => intro m h; simp [foldHosts, hostFilter, Except.map]
  | cons hh hs ih =>
    intro m h
    simp only [foldHosts, hostFilter]
    cases hb : host_belong_group hh preds with
    | error e => simp [Except.map]
    | ok b =>
      cases b with
      | true =>
        rw [addPair_fresh h hh.name, foldHosts_present preds g hs m [hh.name] h]
        cases hf : hostFilter preds hs with
        | error e => simp [Except.map]
        | ok names => simp [Except.map]
      | false => exact ih m h

theorem resolveGroupsAux_filter (cfg : InputConfig) :
    ∀ (gs : List Group) (m : Mapping), (gs.map Group.name).Nodup →
      (∀ g ∈ gs, ∀ p ∈ m, p.1 ≠ g.name) →
      resolveGroupsAux cfg m gs = Except.map (fun rest => m ++ rest) (groupsFilter cfg gs) := by
  intro gs
  induction gs with
  | nil => intro m _ _; simp [resolveGroupsAux, groupsFilter, Except.map]
  | cons g gs ih =>
    intro m hnd hfresh
    rw [List.map_cons, List.nodup_cons] at hnd
    cases hc : g.constraints with
    | none => simp only [resolveGroupsAux, groupsFilter, hc, Except.map]
    | some c =>
      by_cases hce : c = ""
      · subst hce
        simp [resolveGroupsAux, groupsFilter, hc, Except.map]
      · have hce' : (c == "") = false := by simpa using hce
        cases hp : parseConstraints c with
        | error e =>
          simp only [resolveGroupsAux, groupsFilter, hc, hce', Bool.false_eq_true, if_false,
            hp, Except.map]
        | ok preds =>
          have hfr : ∀ p ∈ m, p.1 ≠ g.name := hfresh g (List.mem_cons_self g gs)
          simp only [resolveGroupsAux, groupsFilter, hc, hce', Bool.false_eq_true, if_false, hp]
          rw [foldHosts_fresh preds g.name cfg.hosts m hfr]
          cases hf : hostFilter preds cfg.hosts with
          | error e => simp [Except.map]
          | ok names =>
            simp only [Except.map]
            cases names with
            | nil =>
              simp only [List.isEmpty_nil, if_true]
              rw [ih m hnd.2 (fun g' hg' => hfresh g' (List.mem_cons_of_mem g hg'))]
              cases groupsFilter cfg gs <;> simp [Except.map]
            | cons n ns =>
              simp only [List.isEmpty_cons, Bool.false_eq_true, if_false]
              have hfresh2 : ∀ g' ∈ gs, ∀ p ∈ m ++ [(g.name, n :: ns)], p.1 ≠ g'.name := by
                intro g' hg' p hp2
                rcases List.mem_append.mp hp2 with hpm | hpl
                · exact hfresh g' (List.mem_cons_of_mem g hg') p hpm
                · rcases List.mem_singleton.mp hpl with rfl
                  intro hcontra
                  apply hnd.1
                  have heq : g.name = g'.name := hcontra
                  rw [heq]
                  exact List.mem_map_of_mem Group.name hg'
              rw [ih (m ++ [(g.name, n :: ns)]) hnd.2 hfresh2]
              cases groupsFilter cfg gs <;> simp [Except.map]

theorem resolveGroups_eq_groupsFilter {cfg : InputConfig}
    (h : (cfg.groups.map Group.name).Nodup) :
    resolveGroups cfg = groupsFilter cfg cfg.groups := by
  rw [resolveGroups, resolveGroupsAux_filter cfg cfg.groups [] h (by intro g hg p hp; cases hp)]
  cases groupsFilter cfg cfg.groups <;> simp [Except.map]

theorem hostFilter_sublist (preds : List Predicate) :
    ∀ (hs : List Host) (names : List String), hostFilter preds hs = .ok names →
      names.Sublist (hs.map Host.name) := by
  intro hs
  induction hs with
  | nil =>
    intro names h
    simp only [hostFilter] at h
    cases h
    simp
  | cons hh hs ih =>
    intro names h
    simp only [hostFilter] at h
    cases hb : host_belong_group hh preds with
    | error e => rw [hb] at h; cases h
    | ok b =>
      rw [hb] at h
      cases b with
      | true =>
        cases hf : hostFilter preds hs with
        | error e => rw [hf] at h; cases h
        | ok ns =>
          rw [hf] at h
          cases h
          exact List.Sublist.cons₂ hh.name (ih ns hf)
      | false => exact List.Sublist.cons hh.name (ih names h)

theorem groupsFilter_keys (cfg : InputConfig) :
    ∀ (gs : List Group) (m : Mapping), groupsFilter cfg gs = .ok m →
      (m.map Prod.fst).Sublist (gs.map Group.name) := by
  intro gs
  induction gs with
  | nil =>
    intro m h
    simp only [groupsFilter] at h
    cases h
    simp
  | cons g gs ih =>
    intro m h
    simp only [groupsFilter] at h
    cases hc : g.constraints with
    | none => rw [hc] at h; cases h
    | some c =>
      rw [hc] at h
      by_cases hce : c = ""
      · subst hce; simp at h
      · have hce' : (c == "") = false := by simpa using hce
        simp only [hce', Bool.false_eq_true, if_false] at h
        cases hp : parseConstraints c with
        | error e => rw [hp] at h; cases h
        | ok preds =>
          simp only [hp] at h
          cases hf : hostFilter preds cfg.hosts with
          | error e => rw [hf] at h; cases h
          | ok names =>
            simp only [hf] at h
            cases hg : groupsFilter cfg gs with
            | error e => rw [hg] at h; cases h
            | ok rest =>
              rw [hg] at h
              cases h
              cases names with
              | nil =>
                simp only [List.isEmpty_nil, if_true]
                exact List.Sublist.cons g.name (ih rest hg)
              | cons n ns =>
                simp only [List.isEmpty_cons, Bool.false_eq_true, if_false, List.map_cons]
                exact List.Sublist.cons₂ g.name (ih rest hg)

theorem groupsFilter_members (cfg : InputConfig) :
    ∀ (gs : List Group) (m : Mapping), groupsFilter cfg gs = .ok m →
      ∀ p ∈ m, ∃ preds, hostFilter preds cfg.hosts = .ok p.2 := by
  intro gs
  induction gs with
  | nil =>
    intro m h
    simp only [groupsFilter] at h
    cases h
    intro p hp
    cases hp
  | cons g gs ih =>
    intro m h
    simp only [groupsFilter] at h
    cases hc : g.constraints with
    | none => rw [hc] at h; cases h
    | some c =>
      rw [hc] at h
      by_cases hce : c = ""
      · subst hce; simp at h
      · have hce' : (c == "") = false := by simpa using hce
        simp only [hce', Bool.false_eq_true, if_false] at h
        cases hp : parseConstraints c with
        | error e => rw [hp] at h; cases h
        | ok preds =>
          simp only [hp] at h
          cases hf : hostFilter preds cfg.hosts with
          | error e => rw [hf] at h; cases h
          | ok names =>
            simp only [hf] at h
            cases hg : groupsFilter cfg gs with
            | error e => rw [hg] at h; cases h
            | ok rest =>
              rw [hg] at h
              cases h
              cases names with
              | nil =>
                intro p hpm
                simp only [List.isEmpty_nil, if_true] at hpm
                exact ih rest hg p hpm
              | cons n ns =>
                intro p hpm
                simp only [List.isEmpty_cons, Bool.false_eq_true, if_false] at hpm
                rcases List.mem_cons.mp hpm with rfl | hpm2
                · exact ⟨preds, hf⟩
                · exact ih rest hg p hpm2

theorem addPair_names {m : Mapping} {g x : String} {p2 : String × List String}
    (hp : p2 ∈ addPair m g x) : ∀ n ∈ p2.2, (∃ p ∈ m, n ∈ p.2) ∨ n = x := by
  intro n hn
  unfold addPair at hp
  by_cases hany : (m.any (fun p => p.1 == g)) = true
  · rw [if_pos hany] at hp
    obtain ⟨p, hpm, hpe⟩ := List.mem_map.mp hp
    by_cases hk : (p.1 == g) = true
    · rw [if_pos hk] at hpe
      subst hpe
      rcases List.mem_append.mp hn with h1 | h2
      · exact Or.inl ⟨p, hpm, h1⟩
      · exact Or.inr (List.mem_singleton.mp h2)
    · rw [if_neg hk] at hpe
      subst hpe
      exact Or.inl ⟨p, hpm, hn⟩
  · rw [if_neg hany] at hp
    rcases List.mem_append.mp hp with h1 | h2
    · exact Or.inl ⟨p2, h1, hn⟩
    · rcases List.mem_singleton.mp h2 with rfl
      exact Or.inr (List.mem_singleton.mp hn)

theorem foldHosts_names (preds : List Predicate) (g : String) :
    ∀ (hs : List Host) (m m2 : Mapping), foldHosts preds g m hs = .ok m2 →
      ∀ p2 ∈ m2, ∀ n ∈ p2.2, (∃ p ∈ m, n ∈ p.2) ∨ n ∈ hs.map Host.name := by
  intro hs
  induction hs with
  | nil =>
    intro m m2 h
    simp only [foldHosts] at h
    cases h
    intro p2 hp2 n hn
    exact Or.inl ⟨p2, hp2, hn⟩
  | cons hh hs ih =>
    intro m m2 h
    simp only [foldHosts] at h
    cases hb : host_belong_group hh preds with
    | error e => rw [hb] at h; cases h
    | ok b =>
      rw [hb] at h
      cases b with
      | true =>
        intro p2 hp2 n hn
        rcases ih (addPair m g hh.name) m2 h p2 hp2 n hn with ⟨p, hpm, hnp⟩ | hmem
        · rcases addPair_names hpm n hnp with h1 | rfl
          · exact Or.inl h1
          · exact Or.inr (by simp)
        · exact Or.inr (List.mem_cons_of_mem _ hmem)
      | false =>
        intro p2 hp2 n hn
        rcases ih m m2 h p2 hp2 n hn with h1 | hmem
        · exact Or.inl h1
        · exact Or.inr (List.mem_cons_of_mem _ hmem)

theorem resolveGroupsAux_names (cfg : InputConfig) :
    ∀ (gs : List Group) (m m2 : Mapping), resolveGroupsAux cfg m gs = .ok m2 →
      ∀ p2 ∈ m2, ∀ n ∈ p2.2, (∃ p ∈ m, n ∈ p.2) ∨ n ∈ cfg.hosts.map Host.name := by
  intro gs
  induction gs with
  | nil =>
    intro m m2 h
    simp only [resolveGroupsAux] at h
    cases h
    intro p2 hp2 n hn
    exact Or.inl ⟨p2, hp2, hn⟩
  | cons g gs ih =>
    intro m m2 h
    simp only [resolveGroupsAux] at h
    cases hc : g.constraints with
    | none => rw [hc] at h; cases h
    | some c =>
      rw [hc] at h
      by_cases hce : c = ""
      · subst hce; simp at h
      · have hce' : (c == "") = false := by simpa using hce
        simp only [hce', Bool.false_eq_true, if_false] at h
        cases hp : parseConstraints c with
        | error e => rw [hp] at h; cases h
        | ok preds =>
          simp only [hp] at h
          cases hfo : foldHosts preds g.name m cfg.hosts with
          | error e => rw [hfo] at h; cases h
          | ok mm =>
            simp only [hfo] at h
            intro p2 hp2 n hn
            rcases ih mm m2 h p2 hp2 n hn with ⟨p, hpm, hnp⟩ | hmem
            · exact foldHosts_names preds g.name cfg.hosts m mm hfo p hpm n hnp
            · exact Or.inr hmem

theorem get_host_ok_of_mem {cfg : InputConfig} {n : String}
    (h : n ∈ cfg.hosts.map Host.name) : exceptOk (cfg.get_host n) = true := by
  obtain ⟨hh, hhm, rfl⟩ := List.mem_map.mp h
  simp only [InputConfig.get_host]
  cases hf : cfg.hosts.find? (fun h2 => h2.name == hh.name) with
  | some h2 => simp [exceptOk]
  | none =>
    rw [List.find?_eq_none] at hf
    exact absurd (beq_self_eq_true hh.name) (hf hh hhm)

theorem dictInsert_fresh {acc : List (String × AnsibleHostVars)} {n : String}
    (h : ∀ p ∈ acc, p.1 ≠ n) (v : AnsibleHostVars) :
    dictInsert acc n v = acc ++ [(n, v)] := by
  have hany : (acc.any (fun p => p.1 == n)) = false := by
    rw [List.any_eq_false]
    intro p hp
    simp [h p hp]
  simp only [dictInsert, hany, Bool.false_eq_true, if_false]

theorem hostsMapAux_keys (cfg : InputConfig) :
    ∀ (ms : List String) (acc hm : List (String × AnsibleHostVars)),
      ms.Nodup → (∀ n ∈ ms, ∀ p ∈ acc, p.1 ≠ n) →
      hostsMapAux cfg acc ms = .ok hm → hm.map Prod.fst = acc.map Prod.fst ++ ms := by
  intro ms
  induction ms with
  | nil =>
    intro acc hm _ _ h
    simp only [hostsMapAux] at h
    cases h
    simp
  | cons n ns ih =>
    intro acc hm hnd hfresh h
    simp only [hostsMapAux] at h
    cases hg : cfg.get_host n with
    | error e => rw [hg] at h; cases h
    | ok hh =>
      simp only [hg] at h
      rw [List.nodup_cons] at hnd
      have hfr : ∀ p ∈ acc, p.1 ≠ n := hfresh n (List.mem_cons_self n ns)
      rw [dictInsert_fresh hfr hh.dump_ansible] at h
      have hfresh2 : ∀ n' ∈ ns, ∀ p ∈ acc ++ [(n, hh.dump_ansible)], p.1 ≠ n' := by
        intro n' hn' p hp
        rcases List.mem_append.mp hp with h1 | h2
        · exact hfresh n' (List.mem_cons_of_mem n hn') p h1
        · rcases List.mem_singleton.mp h2 with rfl
          intro hco
          have hco' : n = n' := hco
          rw [hco'] at hnd
          exact hnd.1 hn'
      have hk := ih (acc ++ [(n, hh.dump_ansible)]) hm hnd.2 hfresh2 h
      rw [hk]
      simp

theorem assembleAll_children (cfg : InputConfig) :
    ∀ (m : Mapping) (cs : List (String × GroupEntry)), assembleAll cfg m = .ok cs →
      (∀ p ∈ m, p.2.Nodup) →
      cs.map (fun q => (q.1, q.2.hosts.map Prod.fst)) = m := by
  intro m
  induction m with
  | nil =>
    intro cs h _
    simp only [assembleAll] at h
    cases h
    simp
  | cons gp rest ih =>
    obtain ⟨g, ms⟩ := gp
    intro cs h hnd
    simp only [assembleAll] at h
    cases ha : assembleGroup cfg g ms with
    | error e => rw [ha] at h; cases h
    | ok entry =>
      simp only [ha] at h
      cases hr : assembleAll cfg rest with
      | error e => rw [hr] at h; cases h
      | ok cs2 =>
        simp only [hr] at h
        cases h
        have hms : entry.hosts.map Prod.fst = ms := by
          simp only [assembleGroup] at ha
          cases hhm : hostsMapAux cfg [] ms with
          | error e => rw [hhm] at ha; cases ha
          | ok hm =>
            simp only [hhm] at ha
            cases hgg : cfg.get_group g with
            | error e => rw [hgg] at ha; cases ha
            | ok gg =>
              simp only [hgg] at ha
              cases ha
              have hk := hostsMapAux_keys cfg ms [] hm
                (hnd (g, ms) (List.mem_cons_self _ _)) (by intro x hx p hp; cases hp) hhm
              simpa using hk
        rw [List.map_cons, ih cs2 hr (fun p hp => hnd p (List.mem_cons_of_mem _ hp))]
        simp [hms]

theorem space_not_word {c : Char} (h : isSpaceChar c = true) : isWordChar c = false := by
  simp only [isSpaceChar, Bool.or_eq_true, decide_eq_true_eq] at h
  rcases h with ((((h | h) | h) | h) | h) | h <;> subst h <;> decide

theorem word_not_space {c : Char} (h : isWordChar c = true) : isSpaceChar c = false := by
  cases hs : isSpaceChar c
  · rfl
  · rw [space_not_word hs] at h
    cases h

theorem takeWhile_stop (p : Char → Bool) :
    ∀ (a : List Char) (c : Char) (b : List Char), a.all p = true → p c = false →
      (a ++ c :: b).takeWhile p = a := by
  intro a
  induction a with
  | nil =>
    intro c b _ hc
    simp [List.takeWhile_cons, hc]
  | cons x a ih =>
    intro c b ha hc
    rw [List.all_cons, Bool.and_eq_true] at ha
    simp [List.takeWhile_cons, ha.1, ih c b ha.2 hc]

theorem dropWhile_stop (p : Char → Bool) :
    ∀ (a : List Char) (c : Char) (b : List Char), a.all p = true → p c = false →
      (a ++ c :: b).dropWhile p = c :: b := by
  intro a
  induction a with
  | nil =>
    intro c b _ hc
    simp [List.dropWhile_cons, hc]
  | cons x a ih =>
    intro c b ha hc
    rw [List.all_cons, Bool.and_eq_true] at ha
    simp [List.dropWhile_cons, ha.1, ih c b ha.2 hc]

theorem takeWhile_all (p : Char → Bool) : ∀ l : List Char, (l.takeWhile p).all p = true := by
  intro l
  induction l with
  | nil => simp
  | cons x l ih =>
    by_cases hx : p x = true
    · simp [List.takeWhile_cons, hx, ih]
    · simp [List.takeWhile_cons, Bool.of_not_eq_true hx]

theorem isPrefixOf_append_drop :
    ∀ (l cs : List Char), l.isPrefixOf cs = true → cs = l ++ cs.drop l.length := by
  intro l
  induction l with
  | nil => intro cs _; simp
  | cons a as ih =>
    intro cs h
    cases cs with
    | nil => cases h
    | cons c cs' =>
      rw [List.isPrefixOf, Bool.and_eq_true] at h
      have ha : a = c := by simpa using h.1
      subst ha
      simpa using ih cs' h.2

theorem findOp_sound :
    ∀ (cands : List (Op × List Char)) (cs : List Char) (op : Op) (after : List Char),
      findOp cands cs = some (op, after) →
      ∃ pat, (op, pat) ∈ cands ∧ pat.isPrefixOf cs = true ∧ after = cs.drop pat.length ∧
        ∃ c cr, (after.dropWhile isSpaceChar) = c :: cr ∧ isWordChar c = true := by
  intro cands
  induction cands with
  | nil => intro cs op after h; simp [findOp] at h
  | cons cand cands ih =>
    obtain ⟨op0, pat0⟩ := cand
    intro cs op after h
    simp only [findOp] at h
    by_cases hpre : pat0.isPrefixOf cs = true
    · rw [if_pos hpre] at h
      cases hh : ((cs.drop pat0.length).dropWhile isSpaceChar).head? with
      | some c =>
        simp only [hh] at h
        by_cases hw : isWordChar c = true
        · rw [if_pos hw] at h
          cases h
          refine ⟨pat0, List.mem_cons_self _ _, hpre, rfl, ?_⟩
          cases hl : (cs.drop pat0.length).dropWhile isSpaceChar with
          | nil => rw [hl] at hh; cases hh
          | cons c2 cr =>
            rw [hl] at hh
            have hc2 : c2 = c := by simpa using hh
            subst hc2
            exact ⟨c2, cr, rfl, hw⟩
        · rw [if_neg hw] at h
          obtain ⟨pat, hm, hp, he, hc⟩ := ih cs op after h
          exact ⟨pat, List.mem_cons_of_mem _ hm, hp, he, hc⟩
      | none =>
        simp only [hh] at h
        obtain ⟨pat, hm, hp, he, hc⟩ := ih cs op after h
        exact ⟨pat, List.mem_cons_of_mem _ hm, hp, he, hc⟩
    · rw [if_neg hpre] at h
      obtain ⟨pat, hm, hp, he, hc⟩ := ih cs op after h
      exact ⟨pat, List.mem_cons_of_mem _ hm, hp, he, hc⟩

theorem opAlternatives_pat {op : Op} {pat : List Char}
    (h : (op, pat) ∈ opAlternatives) : pat ∈ opStrings := by
  simp only [opAlternatives, List.mem_cons, List.not_mem_nil, or_false, Prod.mk.injEq] at h
  rcases h with ⟨-, rfl⟩ | ⟨-, rfl⟩ | ⟨-, rfl⟩ | ⟨-, rfl⟩ | ⟨-, rfl⟩ <;> simp [opStrings]

theorem reMatch_grammar {s : String} {r : String × Op × String}
    (h : reMatchClause s = some r) : ClauseGrammarAtStart s := by
  simp only [reMatchClause] at h
  by_cases hid : (s.data.takeWhile isWordChar).isEmpty = true
  · rw [if_pos hid] at h; cases h
  · rw [if_neg hid] at h
    cases hfo : findOp opAlternatives ((s.data.dropWhile isWordChar).dropWhile isSpaceChar) with
    | none => rw [hfo] at h; cases h
    | some oa =>
      obtain ⟨op, after⟩ := oa
      rw [hfo] at h
      obtain ⟨pat, hmem, hpre, hafter, c, cr, hdw, hw⟩ :=
        findOp_sound opAlternatives _ op after hfo
      refine ⟨s.data.takeWhile isWordChar,
        (s.data.dropWhile isWordChar).takeWhile isSpaceChar,
        pat,
        after.takeWhile isSpaceChar,
        (after.dropWhile isSpaceChar).takeWhile isWordChar,
        (after.dropWhile isSpaceChar).dropWhile isWordChar,
        ?_, ?_, ?_, ?_, ?_, ?_, ?_, ?_⟩
      · have e2 : (s.data.dropWhile isWordChar).dropWhile isSpaceChar = pat ++ after := by
          have e2a := isPrefixOf_append_drop pat _ hpre
          rw [← hafter] at e2a
          exact e2a
        conv_lhs => rw [← List.takeWhile_append_dropWhile isWordChar s.data]
        congr 1
        conv_lhs =>
          rw [← List.takeWhile_append_dropWhile isSpaceChar (s.data.dropWhile isWordChar)]
        congr 1
        rw [e2]
        congr 1
        conv_lhs => rw [← List.takeWhile_append_dropWhile isSpaceChar after]
        congr 1
        exact (List.takeWhile_append_dropWhile isWordChar _).symm
      · intro hnil
        rw [hnil] at hid
        exact hid rfl
      · exact takeWhile_all isWordChar s.data
      · exact takeWhile_all isSpaceChar _
      · exact opAlternatives_pat hmem
      · exact takeWhile_all isSpaceChar after
      · rw [hdw, List.takeWhile_cons, hw]
        simp
      · exact takeWhile_all isWordChar _

theorem findOp_grammar (ws2 tok rest : List Char) (t : Char) (ts : List Char)
    (hws2 : ws2.all isSpaceChar = true) (htok : tok = t :: ts) (hw : isWordChar t = true) :
    ∀ op ∈ opStrings, ∃ o, findOp opAlternatives (op ++ (ws2 ++ (tok ++ rest))) =
      some (o, ws2 ++ (tok ++ rest)) := by
  have hdw : (ws2 ++ (tok ++ rest)).dropWhile isSpaceChar = t :: (ts ++ rest) := by
    subst htok
    have := dropWhile_stop isSpaceChar ws2 t (ts ++ rest) hws2 (word_not_space hw)
    simpa using this
  have hwe : isWordChar '=' = false := by decide
  have hse : isSpaceChar '=' = false := by decide
  intro op hop
  simp only [opStrings, List.mem_cons, List.not_mem_nil, or_false] at hop
  rcases hop with rfl | rfl | rfl | rfl | rfl
  · exact ⟨.eq, by simp [findOp, opAlternatives, List.isPrefixOf, hdw, hw]⟩
  · exact ⟨.lt, by simp [findOp, opAlternatives, List.isPrefixOf, hdw, hw]⟩
  · exact ⟨.gt, by simp [findOp, opAlternatives, List.isPrefixOf, hdw, hw]⟩
  · exact ⟨.le, by simp [findOp, opAlternatives, List.isPrefixOf, hdw, hw, hwe, hse]⟩
  · exact ⟨.ge, by simp [findOp, opAlternatives, List.isPrefixOf, hdw, hw, hwe, hse]⟩

theorem grammar_reMatch {s : String} (h : ClauseGrammarAtStart s) :
    (reMatchClause s).isSome = true := by
  obtain ⟨ident, ws1, op, ws2, tok, rest, heq, hne, hword, hws1, hop, hws2, htne, htword⟩ := h
  obtain ⟨t, ts, rfl⟩ : ∃ t ts, tok = t :: ts := by
    cases tok with
    | nil => exact absurd rfl htne
    | cons t ts => exact ⟨t, ts, rfl⟩
  have hwt : isWordChar t = true := by
    rw [List.all_cons, Bool.and_eq_true] at htword
    exact htword.1
  obtain ⟨i, id2, rfl⟩ : ∃ i l, ident = i :: l := by
    cases ident with
    | nil => exact absurd rfl hne
    | cons i l => exact ⟨i, l, rfl⟩
  obtain ⟨o1, opr, hopeq, ho1s, ho1w⟩ :
      ∃ o1 opr, op = o1 :: opr ∧ isSpaceChar o1 = false ∧ isWordChar o1 = false := by
    simp only [opStrings, List.mem_cons, List.not_mem_nil, or_false] at hop
    rcases hop with rfl | rfl | rfl | rfl | rfl
    · exact ⟨'=', [], rfl, by decide, by decide⟩
    · exact ⟨'<', [], rfl, by decide, by decide⟩
    · exact ⟨'>', [], rfl, by decide, by decide⟩
    · exact ⟨'<', ['='], rfl, by decide, by decide⟩
    · exact ⟨'>', ['='], rfl, by decide, by decide⟩
  obtain ⟨c0, b0, htaileq, hc0⟩ :
      ∃ c b, ws1 ++ (op ++ (ws2 ++ ((t :: ts) ++ rest))) = c :: b ∧ isWordChar c = false := by
    cases ws1 with
    | nil =>
      rw [hopeq]
      exact ⟨o1, opr ++ (ws2 ++ ((t :: ts) ++ rest)), by simp, ho1w⟩
    | cons w ws1b =>
      have hsw : isSpaceChar w = true := by
        rw [List.all_cons, Bool.and_eq_true] at hws1
        exact hws1.1
      exact ⟨w, ws1b ++ (op ++ (ws2 ++ ((t :: ts) ++ rest))), by simp, space_not_word hsw⟩
  have htw : s.data.takeWhile isWordChar = i :: id2 := by
    rw [heq, htaileq]
    exact takeWhile_stop isWordChar (i :: id2) c0 b0 hword hc0
  have hdwx : s.data.dropWhile isWordChar = ws1 ++ (op ++ (ws2 ++ ((t :: ts) ++ rest))) := by
    rw [heq, htaileq, dropWhile_stop isWordChar (i :: id2) c0 b0 hword hc0, ← htaileq]
  have hdws : (ws1 ++ (op ++ (ws2 ++ ((t :: ts) ++ rest)))).dropWhile isSpaceChar
      = op ++ (ws2 ++ ((t :: ts) ++ rest)) := by
    rw [hopeq]
    have hh := dropWhile_stop isSpaceChar ws1 o1 (opr ++ (ws2 ++ ((t :: ts) ++ rest))) hws1 ho1s
    simpa using hh
  obtain ⟨o, hfo⟩ := findOp_grammar ws2 (t :: ts) rest t ts hws2 rfl hwt op hop
  have hX : (ws2 ++ ((t :: ts) ++ rest)).dropWhile isSpaceChar = t :: (ts ++ rest) := by
    have hh := dropWhile_stop isSpaceChar ws2 t (ts ++ rest) hws2 (word_not_space hwt)
    simpa using hh
  have h1 : ((s.data.takeWhile isWordChar).isEmpty) = false := by
    rw [htw]
    rfl
  have h2 : ((((ws2 ++ ((t :: ts) ++ rest)).dropWhile isSpaceChar).takeWhile
      isWordChar).isEmpty) = false := by
    rw [hX, List.takeWhile_cons, hwt]
    rfl
  simp only [reMatchClause, h1, Bool.false_eq_true, if_false, hdwx, hdws, hfo, h2]
  rfl

/-- A membership of a nonempty list's `getLast?`. -/
theorem getLast?_append_right {a b : List Char} (hb : b ≠ []) :
    (a ++ b).getLast? = b.getLast? := by
  rw [List.getLast?_append]
  cases hb2 : b.getLast? with
  | some c => rfl
  | none =>
    rw [List.getLast?_eq_none_iff] at hb2
    exact absurd hb2 hb

/-- Example SSH block for the concrete configurations below. -/
def sshRoot : SSH := ⟨"root", none, none, some 22⟩

/-- Example heartbeat block. -/
def hb0 : Heartbeat := ⟨["k1:9092"], "heartbeat", 30⟩

/-- A host declaring capability cpu = 8. -/
def hostCpu8 : Host := ⟨"h1", "10.0.0.1", 9000, 4, sshRoot, [("cpu", .int 8)], none⟩

/-- A host with an empty capability mapping. -/
def hostNoCaps : Host := ⟨"h0", "10.0.0.5", 9000, 2, sshRoot, [], none⟩

/-- One capability-free host against a numeric constraint. -/
def cfgC2 : InputConfig := ⟨[hostNoCaps], [⟨"g", some "cpu>=16", none, none⟩], hb0⟩

/-- A valid first group followed by a group with an empty constraint string. -/
def cfgC3 : InputConfig :=
  ⟨[hostCpu8], [⟨"g1", some "cpu>=4", none, none⟩, ⟨"g2", some "", none, none⟩], hb0⟩

/-- Two groups that share one name: the first accepts only the second host,
the second only the first. -/
def cfg7 : InputConfig :=
  ⟨[⟨"h1", "10.0.0.1", 9000, 4, sshRoot, [("x", .int 1)], none⟩,
    ⟨"h2", "10.0.0.2", 9000, 4, sshRoot, [("x", .int 2)], none⟩],
   [⟨"g", some "x=2", none, none⟩, ⟨"g", some "x=1", none, none⟩], hb0⟩

/-- Two host declarations that share the name h1. -/
def cfg9 : InputConfig :=
  ⟨[⟨"h1", "10.0.0.1", 9000, 4, sshRoot, [], none⟩,
    ⟨"h1", "10.0.0.2", 9100, 8, sshRoot, [], none⟩],
   [⟨"g", some "cpu>=4", none, none⟩], hb0⟩

/-- A well-formed two-host, two-group configuration. -/
def cfgW : InputConfig :=
  ⟨[⟨"h1", "10.0.0.1", 9000, 4, sshRoot, [("cpu", .int 8)], none⟩,
    ⟨"h2", "10.0.0.2", 9100, 16, sshRoot, [("cpu", .int 16)], none⟩],
   [⟨"g1", some "cpu>=4", none, none⟩, ⟨"g2", some "cpu>=16", none, none⟩], hb0⟩

/-- The mapping `cfgW` resolves to. -/
def mW : Mapping := [("g1", ["h1", "h2"]), ("g2", ["h2"])]

/-- C1: a host is resolved as a member of a group exactly when, for every
capability the host declares and every predicate of the group's parsed
expression whose key equals that capability's name, the predicate is
satisfied by the capability's value; capabilities the host does not declare
are never checked. In particular a host with cpu = 8 is accepted by the
parsed constraint "cpu>=4" and rejected by "cpu>=16". -/
theorem claim_C1 :
    (∀ (host : Host) (preds : List Predicate),
      host_belong_group host preds = .ok true ↔
        ∀ p ∈ host.capabilites, ∀ a ∈ preds, a.key = p.1 →
          a.is_satisfied p.2 = .ok true)
    ∧ (parseConstraints "cpu>=4").bind (host_belong_group hostCpu8) = .ok true
    ∧ (parseConstraints "cpu>=16").bind (host_belong_group hostCpu8) = .ok false :=
  ⟨host_belong_group_ok_true_iff, rfl, rfl⟩

/-- C2: a host whose capability mapping is empty satisfies every predicate
list unconditionally. -/
theorem claim_C2 : ∀ (host : Host) (preds : List Predicate),
    host.capabilites = [] → host_belong_group host preds = .ok true := by
  intro host preds h
  simp only [host_belong_group, h]
  rfl

/-- Witness for C2 at a concrete host and group: the capability-free host is
resolved into a group whose numeric constraint its attributes do not meet. -/
theorem claim_C2_witness :
    hostNoCaps.capabilites = [] ∧
      host_belong_group hostNoCaps [⟨"cpu", .ge, .int 16⟩] = .ok true ∧
      resolveGroups cfgC2 = .ok [("g", ["h0"])] :=
  ⟨rfl, claim_C2 hostNoCaps [⟨"cpu", .ge, .int 16⟩] rfl, rfl⟩

/-- C3: a group with an absent or empty constraint string makes the whole
pass fail before any document is produced; when every other group processes
cleanly the error is the ValidationError naming a bad group; concretely, a
valid first group does not save a configuration whose second group has the
empty constraint string. -/
theorem claim_C3 :
    (∀ cfg : InputConfig, (∃ g ∈ cfg.groups, badGroup g) →
      ∃ e, buildInventory cfg = .error e)
    ∧ (∀ cfg : InputConfig, (∃ g ∈ cfg.groups, badGroup g) →
        (∀ g ∈ cfg.groups, ¬ badGroup g → groupOk cfg g) →
        ∃ gname, buildInventory cfg = .error (.validation gname)
          ∧ ∃ g ∈ cfg.groups, g.name = gname ∧ badGroup g)
    ∧ buildInventory cfgC3 = .error (.validation "g2") := by
  refine ⟨?_, ?_, rfl⟩
  · intro cfg hbad
    obtain ⟨e, he⟩ := resolveGroupsAux_error_of_bad cfg cfg.groups [] hbad
    exact ⟨e, buildInventory_error_of_resolve he⟩
  · intro cfg hbad hok
    obtain ⟨gname, hres, hg⟩ := resolveGroupsAux_validation cfg cfg.groups [] hbad hok
    exact ⟨gname, buildInventory_error_of_resolve hres, hg⟩

/-- C4 counterexample: the clause "cpu>=4!" does not match the spec's
grammar in full — its token would have to absorb the trailing "!" — yet
`parse_annotation` accepts it, because `re.match` only anchors at the start. -/
theorem claim_C4_counterexample :
    ¬ ClauseGrammar "cpu>=4!" ∧ parseClause "cpu>=4!" = .ok ⟨"cpu", .ge, .int 4⟩ := by
  constructor
  · rintro ⟨ident, ws1, op, ws2, tok, heq, -, -, -, -, -, htne, htword⟩
    have hw2 : (ws2 ++ tok) ≠ [] := fun hcon => htne (List.append_eq_nil.mp hcon).2
    have hw3 : (op ++ (ws2 ++ tok)) ≠ [] := fun hcon => hw2 (List.append_eq_nil.mp hcon).2
    have hw4 : (ws1 ++ (op ++ (ws2 ++ tok))) ≠ [] :=
      fun hcon => hw3 (List.append_eq_nil.mp hcon).2
    have hlast : ("cpu>=4!".data).getLast? = tok.getLast? := by
      rw [heq, getLast?_append_right hw4, getLast?_append_right hw3,
        getLast?_append_right hw2, getLast?_append_right htne]
    have hbang : ("cpu>=4!".data).getLast? = some '!' := by decide
    rw [hbang] at hlast
    obtain ⟨hne2, heq2⟩ := List.mem_getLast?_eq_getLast (show '!' ∈ tok.getLast? from
      by rw [← hlast]; rfl)
    have hmem : ('!' : Char) ∈ tok := heq2 ▸ List.getLast_mem hne2
    have := List.all_eq_true.mp htword '!' hmem
    exact absurd this (by decide)
  · rfl

/-- C4 amended: a clause parses exactly when a prefix of it, anchored at the
clause's first character, matches `identifier ws* op ws* token`; arbitrary
trailing text after the token is accepted rather than rejected, and a clause
with no such prefix fails with the ParseError naming that clause. -/
theorem claim_C4_amended : ∀ s : String,
    (exceptOk (parseClause s) = true ↔ ClauseGrammarAtStart s)
    ∧ (¬ ClauseGrammarAtStart s → parseClause s = .error (.parseError s)) := by
  intro s
  have hiff : exceptOk (parseClause s) = true ↔ ClauseGrammarAtStart s := by
    constructor
    · intro h
      cases hr : reMatchClause s with
      | none => simp [parseClause, hr, exceptOk] at h
      | some r => exact reMatch_grammar hr
    · intro h
      have hsome := grammar_reMatch h
      cases hr : reMatchClause s with
      | none => rw [hr] at hsome; cases hsome
      | some r => simp [parseClause, hr, exceptOk]
  refine ⟨hiff, ?_⟩
  intro hng
  cases hr : reMatchClause s with
  | some r => exact absurd (reMatch_grammar hr) hng
  | none => simp [parseClause, hr]

/-- C5 counterexample: the clause written "cpu=4.5" does not produce the
floating-point literal 4.5 — the capture group `(\w+)` stops before the dot,
so the token is "4" and the literal the integer 4. -/
theorem claim_C5_counterexample :
    parseClause "cpu=4.5" = .ok ⟨"cpu", .eq, .int 4⟩
    ∧ Value.int 4 ≠ Value.float (mkRat 9 2) := ⟨rfl, by decide⟩

/-- C5 amended: the coercion order int, then float, then string holds for
the token the regex captures, and "4" does become integer 4, "eu" the string
"eu"; but a captured token can never contain a dot, so a clause written
key=4.5 yields the integer literal 4 — "4.5" becomes the float nine halves
only when handed to the constructor directly, and the float branch is
reached from clauses only by `\w` tokens such as "1e5". -/
theorem claim_C5_amended :
    coerceValue "4" = .int 4
    ∧ coerceValue "eu" = .str "eu"
    ∧ coerceValue "4.5" = .float (mkRat 9 2)
    ∧ (mkRat 9 2 : ℚ) = 9 / 2
    ∧ coerceValue "1e5" = .float 100000
    ∧ parseClause "zone=eu" = .ok ⟨"zone", .eq, .str "eu"⟩
    ∧ parseClause "cpu=4" = .ok ⟨"cpu", .eq, .int 4⟩
    ∧ parseClause "cpu=4.5" = .ok ⟨"cpu", .eq, .int 4⟩ :=
  ⟨rfl, rfl, by decide, by norm_num [Rat.mkRat_eq_div], by decide, rfl, rfl, rfl⟩

/-- C6: a predicate whose literal is string-typed and whose operator is an
ordering operator raises the fatal "Invalid value" error on every host
value, never returning false; in particular comparing the string literal
"eu" with `<` against the host value "us" fails rather than evaluating. -/
theorem claim_C6 :
    (∀ (key : String) (op : Op) (lit : String) (v : Value), op ≠ .eq →
      Predicate.is_satisfied ⟨key, op, .str lit⟩ v = .error (.invalidValue (.str lit)))
    ∧ Predicate.is_satisfied ⟨"zone", .lt, .str "eu"⟩ (.str "us")
        = .error (.invalidValue (.str "eu")) := by
  constructor
  · intro key op lit v hne
    cases op with
    | eq => exact absurd rfl hne
    | lt => rfl
    | gt => rfl
    | le => rfl
    | ge => rfl
  · rfl

/-- C8 counterexample: under `=`, the host value float 4.0 against the
integer literal 4 returns true, although the two kinds differ — Python
`==` compares int and float by value, contradicting the claim that a kind
mismatch always yields false. -/
theorem claim_C8_counterexample :
    Predicate.is_satisfied ⟨"cpu", .eq, .int 4⟩ (.float 4) = .ok true := by decide

/-- C8 amended: under `=`, `is_satisfied` is total — it returns a boolean
for every literal and host value and never raises; a string against a
number (in either order) yields false; but the two numeric kinds compare by
exact value, so the float host value 4.0 equals the integer literal 4. -/
theorem claim_C8_amended :
    (∀ (key : String) (lit v : Value),
      exceptOk (Predicate.is_satisfied ⟨key, .eq, lit⟩ v) = true)
    ∧ (∀ (key s : String) (n : ℤ),
        Predicate.is_satisfied ⟨key, .eq, .int n⟩ (.str s) = .ok false
        ∧ Predicate.is_satisfied ⟨key, .eq, .str s⟩ (.int n) = .ok false)
    ∧ (∀ (key s : String) (q : ℚ),
        Predicate.is_satisfied ⟨key, .eq, .float q⟩ (.str s) = .ok false
        ∧ Predicate.is_satisfied ⟨key, .eq, .str s⟩ (.float q) = .ok false)
    ∧ Predicate.is_satisfied ⟨"cpu", .eq, .int 4⟩ (.float 4) = .ok true := by
  refine ⟨?_, ?_, ?_, by decide⟩
  · intro key lit v
    rfl
  · intro key s n
    exact ⟨rfl, rfl⟩
  · intro key s q
    exact ⟨rfl, rfl⟩

/-- C7 counterexample: two groups declared with the same name merge into one
mapping key, and the merged member list can order hosts against their
declaration order — here h2 before h1. -/
theorem claim_C7_counterexample :
    resolveGroups cfg7 = .ok [("g", ["h2", "h1"])]
    ∧ cfg7.hosts.map Host.name = ["h1", "h2"]
    ∧ ¬ (["h2", "h1"] : List String).Sublist ["h1", "h2"] := by
  refine ⟨rfl, rfl, ?_⟩
  decide

/-- C7 amended: when group names are pairwise distinct, the resolved mapping
lists groups as a subsequence of their declaration order and each member
list as a subsequence of the host declaration order; when host names are
also distinct, the document's children mirror the mapping exactly, name for
name and host for host, in that order. -/
theorem claim_C7_amended : ∀ (cfg : InputConfig) (m : Mapping),
    (cfg.groups.map Group.name).Nodup → resolveGroups cfg = .ok m →
    ((m.map Prod.fst).Sublist (cfg.groups.map Group.name)
    ∧ (∀ p ∈ m, p.2.Sublist (cfg.hosts.map Host.name))
    ∧ ((cfg.hosts.map Host.name).Nodup → ∀ doc, buildInventory cfg = .ok doc →
        doc.children.map (fun q => (q.1, q.2.hosts.map Prod.fst)) = m)) := by
  intro cfg m hnd hres
  have hgf : groupsFilter cfg cfg.groups = .ok m := by
    rw [← resolveGroups_eq_groupsFilter hnd]
    exact hres
  have hsub2 : ∀ p ∈ m, p.2.Sublist (cfg.hosts.map Host.name) := by
    intro p hp
    obtain ⟨preds, hf⟩ := groupsFilter_members cfg cfg.groups m hgf p hp
    exact hostFilter_sublist preds cfg.hosts p.2 hf
  refine ⟨groupsFilter_keys cfg cfg.groups m hgf, hsub2, ?_⟩
  intro hndh doc hdoc
  cases ha : assembleAll cfg m with
  | error e =>
    simp only [buildInventory, hres, ha] at hdoc
    cases hdoc
  | ok cs =>
    simp only [buildInventory, hres, ha] at hdoc
    cases hdoc
    exact assembleAll_children cfg m cs ha
      (fun p hp => List.Nodup.sublist (hsub2 p hp) hndh)

/-- Witness for C7 amended at the concrete configuration `cfgW`. -/
theorem claim_C7_amended_witness :
    ((cfgW.groups.map Group.name).Nodup ∧ resolveGroups cfgW = .ok mW)
    ∧ (mW.map Prod.fst).Sublist (cfgW.groups.map Group.name)
    ∧ (∀ p ∈ mW, p.2.Sublist (cfgW.hosts.map Host.name)) :=
  ⟨⟨by decide, rfl⟩, (claim_C7_amended cfgW mW (by decide) rfl).1,
    (claim_C7_amended cfgW mW (by decide) rfl).2.1⟩

/-- C9 counterexample: two host declarations sharing the name h1 both enter
the one group's membership, which therefore repeats a name. -/
theorem claim_C9_counterexample :
    resolveGroups cfg9 = .ok [("g", ["h1", "h1"])]
    ∧ ¬ (["h1", "h1"] : List String).Nodup := ⟨rfl, by decide⟩

/-- C9 amended: when group names are pairwise distinct and host names are
pairwise distinct, every resolved membership list contains each host name at
most once. -/
theorem claim_C9_amended : ∀ (cfg : InputConfig) (m : Mapping),
    (cfg.groups.map Group.name).Nodup → (cfg.hosts.map Host.name).Nodup →
    resolveGroups cfg = .ok m → ∀ p ∈ m, p.2.Nodup := by
  intro cfg m hndg hndh hres p hp
  have hgf : groupsFilter cfg cfg.groups = .ok m := by
    rw [← resolveGroups_eq_groupsFilter hndg]
    exact hres
  obtain ⟨preds, hf⟩ := groupsFilter_members cfg cfg.groups m hgf p hp
  exact List.Nodup.sublist (hostFilter_sublist preds cfg.hosts p.2 hf) hndh

/-- Witness for C9 amended at the concrete configuration `cfgW`. -/
theorem claim_C9_amended_witness :
    ((cfgW.groups.map Group.name).Nodup ∧ (cfgW.hosts.map Host.name).Nodup
      ∧ resolveGroups cfgW = .ok mW)
    ∧ (∀ p ∈ mW, p.2.Nodup) :=
  ⟨⟨by decide, by decide, rfl⟩, claim_C9_amended cfgW mW (by decide) (by decide) rfl⟩

/-- C10: every name in a resolved membership list names a declared host, so
the assembler's `get_host` lookup on membership entries cannot fail. -/
theorem claim_C10 : ∀ (cfg : InputConfig) (m : Mapping), resolveGroups cfg = .ok m →
    ∀ p ∈ m, ∀ n ∈ p.2, n ∈ cfg.hosts.map Host.name
      ∧ exceptOk (cfg.get_host n) = true := by
  intro cfg m hres p hp n hn
  have hmem : n ∈ cfg.hosts.map Host.name := by
    rcases resolveGroupsAux_names cfg cfg.groups [] m hres p hp n hn with ⟨p2, hp2, -⟩ | hmem
    · cases hp2
    · exact hmem
  exact ⟨hmem, get_host_ok_of_mem hmem⟩

/-- Witness for C10 at the concrete configuration `cfgW`. -/
theorem claim_C10_witness :
    resolveGroups cfgW = .ok mW
    ∧ (∀ p ∈ mW, ∀ n ∈ p.2, n ∈ cfgW.hosts.map Host.name
        ∧ exceptOk (cfgW.get_host n) = true) :=
  ⟨rfl, claim_C10 cfgW mW rfl⟩

end Deployer
